import Mathlib

/-!
# Verification of the AiiDA deterministic structural hashing engine

This file gives a shallow embedding, in Lean 4, of `make_hash` and its
type-dispatch machinery from `aiida/common/hashing.py`, together with the
BLAKE2b hash function it is built on (as configured by `BLAKE2B_OPTIONS`:
32-byte digests, inner size 64, fanout 0, depth 2, with personalization and
tree-node parameters).  Machine 64-bit words are modelled as `Nat` reduced
modulo `2 ^ 64`; byte strings are `List Nat` with entries below 256.
-/

set_option maxRecDepth 8000000
set_option maxHeartbeats 4000000

namespace AiidaHash

/-! ## 64-bit word arithmetic -/

/-- `2 ^ 64`, the modulus for 64-bit words. -/
def M64 : Nat := 18446744073709551616

/-- The all-ones 64-bit word. -/
def ones64 : Nat := 18446744073709551615

/-- Addition modulo `2 ^ 64`. -/
def wadd (a b : Nat) : Nat := (a + b) % M64

/-- Right rotation of a 64-bit word by `n` bits. -/
def ror64 (x n : Nat) : Nat := ((x >>> n) ||| (x <<< (64 - n))) % M64

/-! ## BLAKE2b -/

/-- The BLAKE2b initialization vector. -/
def IV : List Nat :=
  [0x6a09e667f3bcc908, 0xbb67ae8584caa73b, 0x3c6ef372fe94f82b, 0xa54ff53a5f1d36f1,
   0x510e527fade682d1, 0x9b05688c2b3e6c1f, 0x1f83d9abfb41bd6b, 0x5be0cd19137e2179]

/-- The BLAKE2b message schedule: ten permutations of `0..15`. -/
def SIGMA : List (List Nat) :=
  [[0, 1, 2, 3, 4, 5, 6, 7, 8, 9, 10, 11, 12, 13, 14, 15],
   [14, 10, 4, 8, 9, 15, 13, 6, 1, 12, 0, 2, 11, 7, 5, 3],
   [11, 8, 12, 0, 5, 2, 15, 13, 10, 14, 3, 6, 7, 1, 9, 4],
   [7, 9, 3, 1, 13, 12, 11, 14, 2, 6, 5, 10, 4, 0, 15, 8],
   [9, 0, 5, 7, 2, 4, 10, 15, 14, 1, 11, 12, 6, 8, 3, 13],
   [2, 12, 6, 10, 0, 11, 8, 3, 4, 13, 7, 5, 15, 14, 1, 9],
   [12, 5, 1, 15, 14, 13, 4, 10, 0, 7, 6, 3, 9, 2, 8, 11],
   [13, 11, 7, 14, 12, 1, 3, 9, 5, 0, 15, 4, 8, 6, 2, 10],
   [6, 15, 14, 9, 11, 3, 0, 8, 12, 2, 13, 7, 1, 4, 10, 5],
   [10, 2, 8, 4, 7, 6, 1, 5, 15, 11, 9, 14, 3, 12, 13, 0]]

/-- The BLAKE2b mixing function `G`, acting on the 16-word work vector `v`
at indices `a b c d` with message words `x y`. -/
def gmix (v : List Nat) (a b c d x y : Nat) : List Nat :=
  let va := wadd (wadd (v.getD a 0) (v.getD b 0)) x
  let vd := ror64 ((v.getD d 0) ^^^ va) 32
  let vc := wadd (v.getD c 0) vd
  let vb := ror64 ((v.getD b 0) ^^^ vc) 24
  let va2 := wadd (wadd va vb) y
  let vd2 := ror64 (vd ^^^ va2) 16
  let vc2 := wadd vc vd2
  let vb2 := ror64 (vb ^^^ vc2) 63
  ((((v.set a va2).set b vb2).set c vc2).set d vd2)

/-- One BLAKE2b round: eight `G` applications driven by row `r mod 10` of the
message schedule, over message words `m`. -/
def blakeRound (m : List Nat) (v : List Nat) (r : Nat) : List Nat :=
  let s := SIGMA.getD (r % 10) []
  let mi := fun i => m.getD (s.getD i 0) 0
  let v1 := gmix v 0 4 8 12 (mi 0) (mi 1)
  let v2 := gmix v1 1 5 9 13 (mi 2) (mi 3)
  let v3 := gmix v2 2 6 10 14 (mi 4) (mi 5)
  let v4 := gmix v3 3 7 11 15 (mi 6) (mi 7)
  let v5 := gmix v4 0 5 10 15 (mi 8) (mi 9)
  let v6 := gmix v5 1 6 11 12 (mi 10) (mi 11)
  let v7 := gmix v6 2 7 8 13 (mi 12) (mi 13)
  gmix v7 3 4 9 14 (mi 14) (mi 15)

/-- The BLAKE2b compression function `F`: compress chaining value `h` (8 words)
with message block `m` (16 words), byte counter `t`, and finalization words
`f0` (last block) and `f1` (last node). -/
def compress (h : List Nat) (m : List Nat) (t : Nat) (f0 f1 : Nat) : List Nat :=
  let v0 := h ++ IV
  let v1 := v0.set 12 ((v0.getD 12 0) ^^^ (t % M64))
  let v2 := v1.set 13 ((v1.getD 13 0) ^^^ (t / M64))
  let v3 := v2.set 14 ((v2.getD 14 0) ^^^ f0)
  let v4 := v3.set 15 ((v3.getD 15 0) ^^^ f1)
  let w := (List.range 12).foldl (blakeRound m) v4
  (List.range 8).map (fun i => (h.getD i 0) ^^^ (w.getD i 0) ^^^ (w.getD (i + 8) 0))

/-- Interpret a list of (up to 8) bytes as a little-endian 64-bit word. -/
def leWord (bs : List Nat) : Nat :=
  bs.foldr (fun b acc => acc * 256 + b) 0

def bytesToWordsAux : Nat → List Nat → List Nat
  | _, [] => []
  | 0, _ => []
  | fuel + 1, bs => leWord (bs.take 8) :: bytesToWordsAux fuel (bs.drop 8)

/-- Split a byte list into 64-bit little-endian words, eight bytes per word,
zero-padding the final word. -/
def bytesToWords (bs : List Nat) : List Nat := bytesToWordsAux bs.length bs

/-- Pad a byte list with zeros on the right to length `n`. -/
def padTo (n : Nat) (bs : List Nat) : List Nat :=
  bs ++ List.replicate (n - bs.length) 0

def blocks128Aux : Nat → List Nat → List (List Nat)
  | 0, l => [l]
  | fuel + 1, l => if l.length ≤ 128 then [l] else l.take 128 :: blocks128Aux fuel (l.drop 128)

/-- Split a message into 128-byte blocks; the empty message yields one
(empty, to be zero-padded) block, as in BLAKE2b. -/
def blocks128 (l : List Nat) : List (List Nat) := blocks128Aux l.length l

/-- Sequentially compress the blocks of a message: `t0` counts the bytes
already processed; the final block is compressed with the finalization flag
set, and with the last-node flag when `lastNode` is set. -/
def processBlocks (lastNode : Bool) (h : List Nat) (t0 : Nat) : List (List Nat) → List Nat
  | [] => h
  | [b] => compress h (bytesToWords (padTo 128 b)) (t0 + b.length) ones64 (if lastNode then ones64 else 0)
  | b :: b2 :: bs =>
      processBlocks lastNode (compress h (bytesToWords b) (t0 + 128) 0 0) (t0 + 128) (b2 :: bs)

/-- The BLAKE2b parameter block (64 bytes) as configured by the source's
`BLAKE2B_OPTIONS`: digest length 32, no key, fanout 0, depth 2, leaf length 0,
node offset 0, the given node depth, inner size 64, no salt, and the given
(zero-padded, 16-byte) personalization. -/
def paramBytes (nodeDepth : Nat) (person : List Nat) : List Nat :=
  [32, 0, 0, 2] ++ List.replicate 12 0 ++ [nodeDepth, 64] ++ List.replicate 14 0 ++
    List.replicate 16 0 ++ padTo 16 person

/-- BLAKE2b with the source's `BLAKE2B_OPTIONS` (digest size 32, inner size
64, fanout 0, depth 2), personalization `person`, tree-node depth `nodeDepth`
and last-node flag `lastNode`, applied to the byte list `data`; returns the
32-byte digest. -/
def blake2b (data : List Nat) (person : List Nat) (nodeDepth : Nat) (lastNode : Bool) : List Nat :=
  let h0 := (List.range 8).map
    (fun i => (IV.getD i 0) ^^^ leWord ((paramBytes nodeDepth person).drop (8 * i) |>.take 8))
  let hout := processBlocks lastNode h0 0 (blocks128 data)
  (hout.take 4).flatMap (fun w => (List.range 8).map (fun i => (w >>> (8 * i)) % 256))

/-! ## Byte encodings -/

/-- UTF-8 encoding of a single Unicode code point. -/
def utf8EncodeChar (c : Nat) : List Nat :=
  if c < 0x80 then [c]
  else if c < 0x800 then
    [0xC0 ||| (c >>> 6), 0x80 ||| (c &&& 0x3F)]
  else if c < 0x10000 then
    [0xE0 ||| (c >>> 12), 0x80 ||| ((c >>> 6) &&& 0x3F), 0x80 ||| (c &&& 0x3F)]
  else
    [0xF0 ||| (c >>> 18), 0x80 ||| ((c >>> 12) &&& 0x3F), 0x80 ||| ((c >>> 6) &&& 0x3F),
     0x80 ||| (c &&& 0x3F)]

/-- The UTF-8 bytes of a string (the model of Python's `s.encode('utf-8')`;
for ASCII strings this is also `s.encode('ascii')`). -/
def strBytes (s : String) : List Nat := s.data.flatMap (fun c => utf8EncodeChar c.toNat)

/-- Lowercase hexadecimal rendering of a byte list (the model of Python's
`bytes.hex()` / hashlib's `hexdigest`); `Nat.digitChar` maps `0..15` to
`'0'..'9', 'a'..'f'`. -/
def toHexString (bs : List Nat) : String :=
  String.mk (bs.flatMap (fun b => [Nat.digitChar (b / 16), Nat.digitChar (b % 16)]))

/-! ## The digest layer of `hashing.py` -/

/-- A digest: a 32-byte sequence. -/
abbrev Digest := List Nat

/-- `_single_digest(obj_type, obj_bytes)`: a one-shot BLAKE2b digest of
`obj_bytes` with the (ASCII) type tag bound as personalization, node depth 0,
and the source's `BLAKE2B_OPTIONS`. -/
def _single_digest (obj_type : String) (obj_bytes : List Nat) : Digest :=
  blake2b obj_bytes (strBytes obj_type) 0 false

/-- `_END_DIGEST`: the digest of the universal close marker `")"`. -/
def _END_DIGEST : Digest := _single_digest (")") []

/-- The final combination step of `make_hash`: feed every leaf digest, in
order, into a fresh BLAKE2b accumulator with node depth 1 and the last-node
flag, append the digest of an empty last leaf node (node depth 0, last node),
and render the result as a lowercase hex string. -/
def finalHash (subs : List Digest) : String :=
  toHexString (blake2b (subs.flatten ++ blake2b [] [] 0 true) [] 1 true)

/-! ## Rendering numbers as text

The source renders floats via Python's `'{:.Ng}'.format(value)`.  Real
values are modelled as exact rationals (the binary floating-point
representation is abstracted to the rational value it denotes), and the
`%g` presentation algorithm — round to `N` significant decimal digits with
round-half-to-even, then choose fixed or scientific notation and strip
trailing fractional zeros — is implemented on rationals. -/

/-- Division of rationals, written out on numerators and denominators
(`Rat.div`/`Rat.inv` are `@[irreducible]`, which blocks `decide`). -/
def ratDiv (a b : Rat) : Rat := Rat.divInt (a.num * (b.den : Int)) ((a.den : Int) * b.num)

/-- Subtraction of rationals, written out on numerators and denominators
(`Rat.sub` is `@[irreducible]`, which blocks `decide`). -/
def ratSub (a b : Rat) : Rat :=
  Rat.divInt (a.num * (b.den : Int) - b.num * (a.den : Int)) ((a.den : Int) * (b.den : Int))

/-- `10 ^ e` as a rational, for an integer exponent. -/
def zpow10 : Int → Rat
  | .ofNat n => ((10 ^ n : Nat) : Rat)
  | .negSucc n => mkRat 1 (10 ^ (n + 1))

def numDigitsAux : Nat → Nat → Nat
  | 0, _ => 1
  | fuel + 1, n => if n < 10 then 1 else numDigitsAux fuel (n / 10) + 1

/-- The number of decimal digits of a natural number (1 for 0). -/
def numDigits (n : Nat) : Nat := numDigitsAux n n

/-- The decimal exponent of a positive rational `q`: the unique `e` with
`10 ^ e ≤ q < 10 ^ (e + 1)` (junk on `q ≤ 0`). -/
def decExp (q : Rat) : Int :=
  let k : Int := (numDigits q.num.natAbs : Int) - (numDigits q.den : Int)
  if zpow10 (k + 1) ≤ q then k + 1 else if zpow10 k ≤ q then k else k - 1

/-- Round a rational to the nearest integer, ties to even. -/
def roundHalfEven (q : Rat) : Int :=
  let f := q.floor
  let r := ratSub q ((f : Int) : Rat)
  if r < mkRat 1 2 then f
  else if mkRat 1 2 < r then f + 1
  else if f % 2 = 0 then f else f + 1

/-- Round a positive rational to `sig` significant decimal digits: returns
the mantissa (an integer of `sig` digits) together with the decimal
exponent of the rounded value. -/
def sigRound (sig : Nat) (q : Rat) : Int × Int :=
  let e := decExp q
  let m := roundHalfEven (ratDiv q (zpow10 (e - (sig : Int) + 1)))
  if m ≥ (10 : Int) ^ sig then (m / 10, e + 1) else (m, e)

/-- Drop trailing `'0'` characters. -/
def stripZeros (cs : List Char) : List Char :=
  (cs.reverse.dropWhile (fun c => c = '0')).reverse

/-- Decimal digit characters of a natural number. -/
def natDigits (n : Nat) : List Char := Nat.toDigits 10 n

/-- Python's `'{:.{sig}g}'.format(value)` on an exact rational: round to
`max sig 1` significant digits; use fixed notation when the resulting
decimal exponent `e` satisfies `-4 ≤ e < sig` (stripping trailing
fractional zeros and a trailing point), and otherwise scientific notation
`d.dddde±XX` with a sign and at least two exponent digits. -/
def gformat (sig : Nat) (q : Rat) : List Char :=
  if q = 0 then ['0']
  else
    let p := max sig 1
    let sgn : List Char := if q < 0 then ['-'] else []
    let me := sigRound p |q|
    let m := me.1
    let e := me.2
    let ds := natDigits m.toNat
    if -4 ≤ e ∧ e < (p : Int) then
      if 0 ≤ e then
        let ip := ds.take (e.toNat + 1)
        let fp := stripZeros (ds.drop (e.toNat + 1))
        sgn ++ ip ++ (if fp.isEmpty then [] else '.' :: fp)
      else
        sgn ++ ['0', '.'] ++ List.replicate (-(e + 1)).toNat '0' ++ stripZeros ds
    else
      let fp := stripZeros (ds.drop 1)
      let mant := ds.take 1 ++ (if fp.isEmpty then [] else '.' :: fp)
      let ea := e.natAbs
      let es := if ea < 10 then '0' :: natDigits ea else natDigits ea
      sgn ++ mant ++ ['e', if e < 0 then '-' else '+'] ++ es

/-- `float_to_text(value, sig)` from the source: convert a real value to a
text string keeping `sig` significant digits, via the `%g` format. -/
def float_to_text (value : Rat) (sig : Nat) : String := String.mk (gformat sig value)

/-- Modelled from the spec: the system-wide float-precision constant
`AIIDA_FLOAT_PRECISION`, imported by the source from `aiida.common.constants`
(a module not under `src/`): the default number of significant digits used to
render real numbers, 12. -/
def AIIDA_FLOAT_PRECISION : Nat := 12

/-- Decimal text of an integer (Python's `u"{}".format(val)`). -/
def intToText (n : Int) : String :=
  if n < 0 then String.mk ('-' :: natDigits n.natAbs) else String.mk (natDigits n.natAbs)

/-- The leaf digest of an integral value: tag `"int"`, decimal text payload. -/
def intDigest (n : Int) : Digest := _single_digest ("int") (strBytes (intToText n))

/-! ## Lexicographic orders used by the sorting steps

Python's `sorted` compares `bytes` values, and lists of them, by strict
lexicographic order; it is a stable sort.  `List.insertionSort` is likewise
stable, so it computes the same result for the same (total pre)order. -/

/-- Generic strict lexicographic order on lists, from a strict order on
elements. -/
def lexLt (elt : α → α → Bool) : List α → List α → Bool
  | [], [] => false
  | [], _ :: _ => true
  | _ :: _, [] => false
  | a :: as, b :: bs => if elt a b then true else if elt b a then false else lexLt elt as bs

/-- Strict order on bytes. -/
def natLtB (a b : Nat) : Bool := Nat.blt a b

/-- Strict order on byte strings / digests (Python's `bytes` comparison). -/
def bytesLt : List Nat → List Nat → Bool := lexLt natLtB

/-- Strict order on lists of digests (Python's comparison of lists of
`bytes`, as produced by `_make_hash`). -/
def streamLt : List Digest → List Digest → Bool := lexLt bytesLt

/-- Strict order on characters by Unicode code point. -/
def charLtB (a b : Char) : Bool := Nat.blt a.toNat b.toNat

/-- Strict order on strings by code points (Python's `str` comparison). -/
def strLt (a b : String) : Bool := lexLt charLtB a.data b.data

/-- The sort of the `abc.Set` handler: sort the per-element digest lists
(stable, by `≤` on lists of digests). -/
def sortStreams (l : List (List Digest)) : List (List Digest) :=
  List.insertionSort (fun x y => streamLt y x = false) l

/-- The sort of the `abc.Mapping` handler: sort (key digests, value digests)
pairs by the key digests only (`sorted(..., key=itemgetter(0))`, stable). -/
def sortPairs (l : List (List Digest × List Digest)) : List (List Digest × List Digest) :=
  List.insertionSort (fun x y => streamLt y.1 x.1 = false) l

/-! ## The data model

The input of `make_hash` is a Python value; the runtime categories with a
registered `_make_hash` handler are modelled as a tagged union.  Real and
complex components are exact rationals (the binary floating-point
representation is abstracted to the value it denotes).  A `datetime` is
modelled by the wall-clock instant it shows — rendered as (possibly
fractional) seconds since 1970-01-01T00:00:00 read as UTC — together with
its `utcoffset()` in seconds (`none` for a timezone-naive value).  A
`bytearray` is kept apart from `bytes`: it has no registered handler of its
own and falls to the `abc.Sequence` rule.  `vother` stands for a value of
any type with no registered handler.  Folders (from `aiida.common.folders`,
not under `src/`) are modelled from the spec as finite trees of named files
(with byte content) and named subfolders. -/

mutual
inductive FolderEntry where
  | file (content : List Nat)
  | dir (entries : FolderEntries)
inductive FolderEntries where
  | nil
  | cons (name : String) (entry : FolderEntry) (rest : FolderEntries)
end

mutual
inductive Value where
  | vnone
  | vbool (b : Bool)
  | vint (n : Int)
  | vfloat (x : Rat)
  | vcomplex (re im : Rat)
  | vstr (s : String)
  | vbytes (bs : List Nat)
  | vbytearray (bs : List Nat)
  | vlist (xs : ValueList)
  | vtuple (xs : ValueList)
  | vset (xs : ValueList)
  | vdict (kvs : ValuePairList)
  | vodict (kvs : ValuePairList)
  | vdatetime (naiveEpochSeconds : Rat) (utcoffsetSeconds : Option Rat)
  | vuuid (bytes : List Nat)
  | vfolder (entries : FolderEntries)
  | vother (typeName : String)
inductive ValueList where
  | nil
  | cons (x : Value) (xs : ValueList)
inductive ValuePairList where
  | nil
  | cons (k : Value) (v : Value) (rest : ValuePairList)
end

/-- Conversion from a plain list of values. -/
def ofList : List Value → ValueList
  | [] => .nil
  | x :: xs => .cons x (ofList xs)

/-- Conversion from a plain list of key-value pairs. -/
def ofPairs : List (Value × Value) → ValuePairList
  | [] => .nil
  | (k, v) :: rest => .cons k v (ofPairs rest)

/-- Conversion from a plain list of named folder entries. -/
def ofEntries : List (String × FolderEntry) → FolderEntries
  | [] => .nil
  | (n, e) :: rest => .cons n e (ofEntries rest)

/-- The keyword options accepted by `make_hash` and threaded through
`_make_hash` as `**kwargs`.  The handlers only ever read
`odict_as_unordered` (the `OrderedDict` handler) and
`ignored_folder_content` (the `Folder` handler); Python's `**kwargs`
accepts any further keyword silently, which is modelled by the
`float_precision` field — no handler reads it. -/
structure Options where
  odict_as_unordered : Bool := false
  ignored_folder_content : List String := []
  float_precision : Option Nat := none
deriving DecidableEq

/-- The failure of the default (no handler registered) `_make_hash` arm: the
source raises `ValueError("Value of type {} cannot be hashed")`; the spec
calls this error kind `UnhashableType` (the interpolated type name is
elided). -/
inductive HashError where
  | unhashableType
deriving DecidableEq

deriving instance DecidableEq for Except

/-! ## The `Folder` handler

`folder_digests` walks the entries of a folder sorted by name
(`sorted(..., key=itemgetter(0))`), skips any entry whose name is in
`ignored_folder_content` (contributing nothing), and emits for a file its
`"fname"` and `"fcontent"` digests, and for a subfolder a `"dir("` digest
over its name, the subfolder's own digest sequence, and `_END_DIGEST`.
To keep the recursion structural, the digest sequence of each subfolder is
precomputed bottom-up into an `EntryInfo`. -/

structure EntryInfo where
  isFile : Bool
  content : List Nat
  body : List Digest
deriving DecidableEq

/-- Sort named entries by name (stable, as Python's `sorted`). -/
def sortEntries (l : List (String × EntryInfo)) : List (String × EntryInfo) :=
  List.insertionSort (fun a b => strLt b.1 a.1 = false) l

/-- The digests one (already summarized) named entry contributes. -/
def entryEmit (ign : List String) (p : String × EntryInfo) : List Digest :=
  if p.1 ∈ ign then []
  else if p.2.isFile then
    [_single_digest ("fname") (strBytes p.1), _single_digest ("fcontent") p.2.content]
  else
    _single_digest ("dir(") (strBytes p.1) :: (p.2.body ++ [_END_DIGEST])

/-- The digest sequence of a folder level: sort by name, then emit each
entry's digests in order. -/
def emitEntries (ign : List String) (l : List (String × EntryInfo)) : List Digest :=
  (sortEntries l).flatMap (entryEmit ign)

mutual
def entryInfo (ign : List String) : FolderEntry → EntryInfo
  | .file c => ⟨true, c, []⟩
  | .dir es => ⟨false, [], emitEntries ign (entriesInfo ign es)⟩
def entriesInfo (ign : List String) : FolderEntries → List (String × EntryInfo)
  | .nil => []
  | .cons n e rest => (n, entryInfo ign e) :: entriesInfo ign rest
end

/-- The digest stream of the `Folder` handler: a `"folder"` tag digest
followed by the recursive digests of the (sorted, non-ignored) contents.
The folder's own name contributes nothing. -/
def folderDigests (ign : List String) (es : FolderEntries) : List Digest :=
  _single_digest ("folder") [] :: emitEntries ign (entriesInfo ign es)

/-! ## `_make_hash`: the type-dispatched digest streams -/

/-- The digest stream for the `abc.Mapping` handler, given hashed key/value
pairs: a `"dict("` tag digest, then for each pair — sorted by the key's
digests — the key's digests followed by the value's, then `_END_DIGEST`. -/
def dictDigests (prs : List (List Digest × List Digest)) : List Digest :=
  [_single_digest ("dict(") []] ++ ((sortPairs prs).flatMap (fun p => p.1 ++ p.2)) ++ [_END_DIGEST]

mutual
/-- The dispatch core `_make_hash(object_to_hash, **kwargs)`: maps a value to
its list of leaf digests, dispatching on the runtime category exactly as the
`@_make_hash.register` handlers do (an exact registration such as `bool` or
`OrderedDict` beats the more generic abstract class):

* `bytes` and `str` both: tag `"str"`, UTF-8 payload;
* `abc.Sequence` (list, tuple, and also bytearray, which iterates over its
  integer byte values): `"list("`, the elements' streams in order, `")"`;
* `abc.Set`: `"set("`, the elements' streams sorted, `")"`;
* `abc.Mapping`: `dictDigests` over recursively hashed pairs;
* `OrderedDict`: `"odict("` with pairs in insertion order — unless
  `odict_as_unordered` is set, in which case the source calls the
  `abc.Mapping` handler `_make_hash.registry[abc.Mapping](mapping)`
  WITHOUT forwarding `**kwargs`, so the entries are rehashed with the
  default options;
* `numbers.Real`: `"float"` over `float_to_text(val, AIIDA_FLOAT_PRECISION)`
  (the per-call options are not consulted);
* `numbers.Complex`: `"complex"` over the two components joined by `"!"`;
* `numbers.Integral`: `"int"` over the decimal text; `bool`: `"bool"` over
  one byte; `None`: `"none"`;
* `datetime`: `"datetime"` over the epoch seconds (a naive value is assumed
  UTC; an aware value is shifted by its `utcoffset()`) rendered via
  `float_to_text` at `AIIDA_FLOAT_PRECISION`;
* `uuid.UUID`: `"uuid"` over the 16 raw bytes;
* `Folder`: `folderDigests` with `ignored_folder_content`;
* anything else: the `ValueError` of the default arm (`UnhashableType`). -/
def _make_hash (kwargs : Options) : Value → Except HashError (List Digest)
  | .vnone => .ok [_single_digest ("none") []]
  | .vbool b => .ok [_single_digest ("bool") [if b then 1 else 0]]
  | .vint n => .ok [intDigest n]
  | .vfloat x => .ok [_single_digest ("float") (strBytes (float_to_text x AIIDA_FLOAT_PRECISION))]
  | .vcomplex re im =>
      .ok [_single_digest ("complex")
        (strBytes (float_to_text re AIIDA_FLOAT_PRECISION ++ "!" ++
                   float_to_text im AIIDA_FLOAT_PRECISION))]
  | .vstr s => .ok [_single_digest ("str") (strBytes s)]
  | .vbytes bs => .ok [_single_digest ("str") bs]
  | .vbytearray bs =>
      .ok ([_single_digest ("list(") []] ++
        bs.map (fun b : Nat => intDigest (b : Int)) ++ [_END_DIGEST])
  | .vlist xs => do
      let subs ← hashList kwargs xs
      .ok ([_single_digest ("list(") []] ++ subs.flatten ++ [_END_DIGEST])
  | .vtuple xs => do
      let subs ← hashList kwargs xs
      .ok ([_single_digest ("list(") []] ++ subs.flatten ++ [_END_DIGEST])
  | .vset xs => do
      let subs ← hashList kwargs xs
      .ok ([_single_digest ("set(") []] ++ (sortStreams subs).flatten ++ [_END_DIGEST])
  | .vdict kvs => do
      let prs ← hashPairs kwargs kvs
      .ok (dictDigests prs)
  | .vodict kvs =>
      if kwargs.odict_as_unordered then do
        let prs ← hashPairs {} kvs
        .ok (dictDigests prs)
      else do
        let prs ← hashPairs kwargs kvs
        .ok ([_single_digest ("odict(") []] ++ (prs.flatMap (fun p => p.1 ++ p.2)) ++ [_END_DIGEST])
  | .vdatetime wall off =>
      .ok [_single_digest ("datetime")
        (strBytes (float_to_text (ratSub wall (off.getD 0)) AIIDA_FLOAT_PRECISION))]
  | .vuuid bs => .ok [_single_digest ("uuid") bs]
  | .vfolder es => .ok (folderDigests kwargs.ignored_folder_content es)
  | .vother _ => .error .unhashableType

/-- Hash each element of a sequence/set, left to right, propagating the
first failure. -/
def hashList (kwargs : Options) : ValueList → Except HashError (List (List Digest))
  | .nil => .ok []
  | .cons x xs => do
      let hx ← _make_hash kwargs x
      let rest ← hashList kwargs xs
      .ok (hx :: rest)

/-- Hash each key and value of a mapping, propagating the first failure. -/
def hashPairs (kwargs : Options) : ValuePairList →
    Except HashError (List (List Digest × List Digest))
  | .nil => .ok []
  | .cons k v rest => do
      let hk ← _make_hash kwargs k
      let hv ← _make_hash kwargs v
      let hr ← hashPairs kwargs rest
      .ok ((hk, hv) :: hr)
end

/-- `make_hash(object_to_hash, **kwargs)`: compute the leaf digest stream
with `_make_hash` and fold it with the unlimited-fanout final combination,
returning the hex digest (or propagating the `UnhashableType` failure). -/
def make_hash (object_to_hash : Value) (kwargs : Options) : Except HashError String := do
  let hashes ← _make_hash kwargs object_to_hash
  .ok (finalHash hashes)

/-! ## Hashability: which values reach the default arm -/

mutual
/-- `false` exactly when the value's tree contains a `vother` node, i.e.
when hashing it reaches the unregistered-type default arm. -/
def hashableV : Value → Bool
  | .vother _ => false
  | .vlist xs => hashableL xs
  | .vtuple xs => hashableL xs
  | .vset xs => hashableL xs
  | .vdict kvs => hashableP kvs
  | .vodict kvs => hashableP kvs
  | _ => true
def hashableL : ValueList → Bool
  | .nil => true
  | .cons x xs => hashableV x && hashableL xs
def hashableP : ValuePairList → Bool
  | .nil => true
  | .cons k v rest => hashableV k && hashableV v && hashableP rest
end

/-- The digest stream of a value under the given options, as a plain value
(`[]` on the unhashable error, which `_make_hash` never pairs with `.ok`). -/
def streamOf (kwargs : Options) (v : Value) : List Digest :=
  match _make_hash kwargs v with
  | .ok ds => ds
  | .error _ => []

/-! ## Facts about the lexicographic orders -/

section LexFacts

variable {α : Type _} {elt : α → α → Bool}

theorem lexLt_asymm (hasymm : ∀ x y, elt x y = true → elt y x = false) :
    ∀ {a b : List α}, lexLt elt a b = true → lexLt elt b a = false
  | [], [], h => by simp [lexLt] at h
  | [], _ :: _, _ => by simp [lexLt]
  | _ :: _, [], h => by simp [lexLt] at h
  | a :: as, b :: bs, h => by
    by_cases hab : elt a b = true
    · simp [lexLt, hab, hasymm a b hab]
    · by_cases hba : elt b a = true
      · simp [lexLt, hab, hba] at h
      · simp only [lexLt, hab, hba, if_false] at h ⊢
        exact lexLt_asymm hasymm h

theorem lexLt_conn (hconn : ∀ x y, elt x y = false → elt y x = false → x = y) :
    ∀ {a b : List α}, lexLt elt a b = false → lexLt elt b a = false → a = b
  | [], [], _, _ => rfl
  | [], _ :: _, h, _ => by simp [lexLt] at h
  | _ :: _, [], _, h => by simp [lexLt] at h
  | a :: as, b :: bs, h, h' => by
    by_cases hab : elt a b = true
    · simp [lexLt, hab] at h
    · by_cases hba : elt b a = true
      · simp [lexLt, hba, hab] at h'
      · simp only [lexLt, hab, hba, if_false] at h h'
        rw [hconn a b (by simpa using hab) (by simpa using hba), lexLt_conn hconn h h']

theorem lexLt_trans
    (hconn : ∀ x y, elt x y = false → elt y x = false → x = y)
    (htrans : ∀ x y z, elt x y = true → elt y z = true → elt x z = true) :
    ∀ {a b c : List α}, lexLt elt a b = true → lexLt elt b c = true → lexLt elt a c = true
  | [], [], _, h, _ => by simp [lexLt] at h
  | _ :: _, [], _, h, _ => by simp [lexLt] at h
  | [], _ :: _, [], _, h => by simp [lexLt] at h
  | [], _ :: _, _ :: _, _, _ => by simp [lexLt]
  | _ :: _, _ :: _, [], _, h => by simp [lexLt] at h
  | a :: as, b :: bs, c :: cs, h, h' => by
    by_cases hab : elt a b = true
    · by_cases hbc : elt b c = true
      · simp [lexLt, htrans a b c hab hbc]
      · by_cases hcb : elt c b = true
        · simp [lexLt, hbc, hcb] at h'
        · have hbceq : b = c := hconn b c (by simpa using hbc) (by simpa using hcb)
          subst hbceq
          simp [lexLt, hab]
    · by_cases hba : elt b a = true
      · simp [lexLt, hab, hba] at h
      · have habeq : a = b := hconn a b (by simpa using hab) (by simpa using hba)
        subst habeq
        simp only [lexLt, hab, if_false] at h
        by_cases hac : elt a c = true
        · simp [lexLt, hac]
        · by_cases hca : elt c a = true
          · simp [lexLt, hca, hac] at h'
          · simp only [lexLt, hac, hca, if_false] at h' ⊢
            exact lexLt_trans hconn htrans h h'

end LexFacts

theorem natLtB_eq (x y : Nat) : natLtB x y = true ↔ x < y := by
  simp [natLtB, Nat.blt_eq]

theorem natLtB_asymm (x y : Nat) : natLtB x y = true → natLtB y x = false := by
  rw [natLtB_eq, ← Bool.not_eq_true, natLtB_eq]; omega

theorem natLtB_conn (x y : Nat) : natLtB x y = false → natLtB y x = false → x = y := by
  rw [← Bool.not_eq_true, natLtB_eq, ← Bool.not_eq_true, natLtB_eq]; omega

theorem natLtB_trans (x y z : Nat) : natLtB x y = true → natLtB y z = true → natLtB x z = true := by
  rw [natLtB_eq, natLtB_eq, natLtB_eq]; omega

theorem bytesLt_asymm {a b : List Nat} : bytesLt a b = true → bytesLt b a = false :=
  lexLt_asymm natLtB_asymm

theorem bytesLt_conn {a b : List Nat} : bytesLt a b = false → bytesLt b a = false → a = b :=
  lexLt_conn natLtB_conn

theorem bytesLt_trans {a b c : List Nat} :
    bytesLt a b = true → bytesLt b c = true → bytesLt a c = true :=
  lexLt_trans natLtB_conn natLtB_trans

theorem streamLt_asymm {a b : List Digest} : streamLt a b = true → streamLt b a = false :=
  lexLt_asymm (fun _ _ => bytesLt_asymm)

theorem streamLt_conn {a b : List Digest} : streamLt a b = false → streamLt b a = false → a = b :=
  lexLt_conn (fun _ _ => bytesLt_conn)

theorem streamLt_trans {a b c : List Digest} :
    streamLt a b = true → streamLt b c = true → streamLt a c = true :=
  lexLt_trans (fun _ _ => bytesLt_conn) (fun _ _ _ => bytesLt_trans)

theorem charLtB_eq (x y : Char) : charLtB x y = true ↔ x.toNat < y.toNat := by
  simp [charLtB, Nat.blt_eq]

theorem charLtB_asymm (x y : Char) : charLtB x y = true → charLtB y x = false := by
  rw [charLtB_eq, ← Bool.not_eq_true, charLtB_eq]; omega

theorem charLtB_conn (x y : Char) : charLtB x y = false → charLtB y x = false → x = y := by
  rw [← Bool.not_eq_true, charLtB_eq, ← Bool.not_eq_true, charLtB_eq]
  intro h h'
  have hn : x.toNat = y.toNat := by omega
  exact Char.eq_of_val_eq (UInt32.eq_of_val_eq (Fin.ext hn))

theorem charLtB_trans (x y z : Char) :
    charLtB x y = true → charLtB y z = true → charLtB x z = true := by
  rw [charLtB_eq, charLtB_eq, charLtB_eq]; omega

theorem strLt_asymm {a b : String} : strLt a b = true → strLt b a = false :=
  lexLt_asymm charLtB_asymm

theorem strLt_conn {a b : String} : strLt a b = false → strLt b a = false → a = b := by
  intro h h'
  cases a; cases b
  exact congrArg String.mk (lexLt_conn charLtB_conn h h')

theorem strLt_trans {a b c : String} :
    strLt a b = true → strLt b c = true → strLt a c = true :=
  lexLt_trans charLtB_conn charLtB_trans

/-! ### Order typeclass instances for the sort relations -/

instance : IsTotal (List Digest) (fun x y => streamLt y x = false) := by
  constructor
  intro a b
  by_cases h : streamLt b a = true
  · exact Or.inr (streamLt_asymm h)
  · exact Or.inl (by simpa using h)

instance : IsTrans (List Digest) (fun x y => streamLt y x = false) := by
  constructor
  intro a b c h1 h2
  by_contra hca
  have hca : streamLt c a = true := by simpa using hca
  by_cases hab : streamLt a b = true
  · exact absurd (streamLt_trans hca hab) (by simp [h2])
  · have : a = b := streamLt_conn (by simpa using hab) h1
    subst this
    exact absurd hca (by simp [h2])

instance : IsAntisymm (List Digest) (fun x y => streamLt y x = false) := by
  constructor
  intro a b h1 h2
  exact @streamLt_conn a b h2 h1

instance : IsTotal (List Digest × List Digest) (fun x y => streamLt y.1 x.1 = false) := by
  constructor
  intro a b
  by_cases h : streamLt b.1 a.1 = true
  · exact Or.inr (streamLt_asymm h)
  · exact Or.inl (by simpa using h)

instance : IsTrans (List Digest × List Digest) (fun x y => streamLt y.1 x.1 = false) := by
  constructor
  intro a b c h1 h2
  by_contra hca
  have hca : streamLt c.1 a.1 = true := by simpa using hca
  by_cases hab : streamLt a.1 b.1 = true
  · exact absurd (streamLt_trans hca hab) (by simp [h2])
  · have : a.1 = b.1 := streamLt_conn (by simpa using hab) h1
    rw [this] at hca
    exact absurd hca (by simp [h2])

instance : IsTotal (String × EntryInfo) (fun x y => strLt y.1 x.1 = false) := by
  constructor
  intro a b
  by_cases h : strLt b.1 a.1 = true
  · exact Or.inr (strLt_asymm h)
  · exact Or.inl (by simpa using h)

instance : IsTrans (String × EntryInfo) (fun x y => strLt y.1 x.1 = false) := by
  constructor
  intro a b c h1 h2
  by_contra hca
  have hca : strLt c.1 a.1 = true := by simpa using hca
  by_cases hab : strLt a.1 b.1 = true
  · exact absurd (strLt_trans hca hab) (by simp [h2])
  · have : a.1 = b.1 := strLt_conn (by simpa using hab) h1
    rw [this] at hca
    exact absurd hca (by simp [h2])

/-! ### Uniqueness of sorted permutations -/

/-- Two permuted lists, both sorted by a key order that separates their
(pairwise distinct) keys, are equal. -/
theorem eq_of_perm_of_sorted_keys {α β : Type _} (key : α → β) (klt : β → β → Bool)
    (hconn : ∀ x y : β, klt x y = false → klt y x = false → x = y) :
    ∀ {l₁ l₂ : List α}, l₁.Perm l₂ →
      l₁.Sorted (fun x y => klt (key y) (key x) = false) →
      l₂.Sorted (fun x y => klt (key y) (key x) = false) →
      (l₁.map key).Pairwise (fun a b => a ≠ b) → l₁ = l₂
  | [], l₂, hp, _, _, _ => (hp.symm.eq_nil).symm
  | a :: t₁, [], hp, _, _, _ => absurd hp.eq_nil (by simp)
  | a :: t₁, b :: t₂, hp, hs₁, hs₂, hd => by
    rw [List.map_cons] at hd
    by_cases hab : a = b
    · subst hab
      have ht : t₁.Perm t₂ := hp.cons_inv
      have := eq_of_perm_of_sorted_keys key klt hconn ht
        (List.sorted_cons.mp hs₁).2 (List.sorted_cons.mp hs₂).2
        (List.pairwise_cons.mp hd).2
      rw [this]
    · exfalso
      have hamem : a ∈ t₂ := by
        rcases List.mem_cons.mp (hp.subset (List.mem_cons_self a t₁)) with h | h
        · exact absurd h hab
        · exact h
      have hbmem : b ∈ t₁ := by
        rcases List.mem_cons.mp (hp.symm.subset (List.mem_cons_self b t₂)) with h | h
        · exact absurd h.symm hab
        · exact h
      have h1 : klt (key b) (key a) = false := (List.sorted_cons.mp hs₁).1 b hbmem
      have h2 : klt (key a) (key b) = false := (List.sorted_cons.mp hs₂).1 a hamem
      have hkey : key a = key b := hconn (key a) (key b) h2 h1
      exact (List.pairwise_cons.mp hd).1 (key b) (List.mem_map_of_mem key hbmem) hkey

/-- The set-handler sort is invariant under permutation of its input. -/
theorem sortStreams_perm {l₁ l₂ : List (List Digest)} (h : l₁.Perm l₂) :
    sortStreams l₁ = sortStreams l₂ := by
  apply List.eq_of_perm_of_sorted
    (((List.perm_insertionSort _ l₁).trans h).trans (List.perm_insertionSort _ l₂).symm)
    (List.sorted_insertionSort _ l₁) (List.sorted_insertionSort _ l₂)

/-- The mapping-handler sort is invariant under permutation of the hashed
pairs, provided their key digest lists are pairwise distinct. -/
theorem sortPairs_perm {l₁ l₂ : List (List Digest × List Digest)} (h : l₁.Perm l₂)
    (hd : (l₁.map Prod.fst).Pairwise (fun a b => a ≠ b)) :
    sortPairs l₁ = sortPairs l₂ := by
  apply eq_of_perm_of_sorted_keys Prod.fst streamLt (fun _ _ => streamLt_conn)
    (((List.perm_insertionSort _ l₁).trans h).trans (List.perm_insertionSort _ l₂).symm)
    (List.sorted_insertionSort _ l₁) (List.sorted_insertionSort _ l₂)
  refine (((List.perm_insertionSort _ l₁).map Prod.fst).pairwise_iff ?_).mpr hd
  intro x y hxy h
  exact hxy h.symm

/-! ## Success and failure of `_make_hash` -/

@[simp] theorem ok_bind {ε α β : Type _} (a : α) (f : α → Except ε β) :
    (Except.ok a : Except ε α) >>= f = f a := rfl

@[simp] theorem error_bind {ε α β : Type _} (e : ε) (f : α → Except ε β) :
    (Except.error e : Except ε α) >>= f = .error e := rfl

mutual
theorem mhV_spec (kwargs : Options) : ∀ v : Value,
    (hashableV v = true → ∃ ds, _make_hash kwargs v = .ok ds) ∧
    (hashableV v = false → _make_hash kwargs v = .error .unhashableType)
  | .vnone => ⟨fun _ => ⟨_, rfl⟩, fun h => by simp [hashableV] at h⟩
  | .vbool _ => ⟨fun _ => ⟨_, rfl⟩, fun h => by simp [hashableV] at h⟩
  | .vint _ => ⟨fun _ => ⟨_, rfl⟩, fun h => by simp [hashableV] at h⟩
  | .vfloat _ => ⟨fun _ => ⟨_, rfl⟩, fun h => by simp [hashableV] at h⟩
  | .vcomplex _ _ => ⟨fun _ => ⟨_, rfl⟩, fun h => by simp [hashableV] at h⟩
  | .vstr _ => ⟨fun _ => ⟨_, rfl⟩, fun h => by simp [hashableV] at h⟩
  | .vbytes _ => ⟨fun _ => ⟨_, rfl⟩, fun h => by simp [hashableV] at h⟩
  | .vbytearray _ => ⟨fun _ => ⟨_, rfl⟩, fun h => by simp [hashableV] at h⟩
  | .vdatetime _ _ => ⟨fun _ => ⟨_, rfl⟩, fun h => by simp [hashableV] at h⟩
  | .vuuid _ => ⟨fun _ => ⟨_, rfl⟩, fun h => by simp [hashableV] at h⟩
  | .vfolder _ => ⟨fun _ => ⟨_, rfl⟩, fun h => by simp [hashableV] at h⟩
  | .vother _ => ⟨fun h => by simp [hashableV] at h, fun _ => rfl⟩
  | .vlist xs => by
    constructor
    · intro h
      obtain ⟨ls, hls⟩ := (mhL_spec kwargs xs).1 (by simpa [hashableV] using h)
      exact ⟨_, by simp [_make_hash, hls] <;> rfl⟩
    · intro h
      have := (mhL_spec kwargs xs).2 (by simpa [hashableV] using h)
      simp [_make_hash, this, Except.bind]
  | .vtuple xs => by
    constructor
    · intro h
      obtain ⟨ls, hls⟩ := (mhL_spec kwargs xs).1 (by simpa [hashableV] using h)
      exact ⟨_, by simp [_make_hash, hls] <;> rfl⟩
    · intro h
      have := (mhL_spec kwargs xs).2 (by simpa [hashableV] using h)
      simp [_make_hash, this, Except.bind]
  | .vset xs => by
    constructor
    · intro h
      obtain ⟨ls, hls⟩ := (mhL_spec kwargs xs).1 (by simpa [hashableV] using h)
      exact ⟨_, by simp [_make_hash, hls] <;> rfl⟩
    · intro h
      have := (mhL_spec kwargs xs).2 (by simpa [hashableV] using h)
      simp [_make_hash, this, Except.bind]
  | .vdict kvs => by
    constructor
    · intro h
      obtain ⟨ls, hls⟩ := (mhP_spec kwargs kvs).1 (by simpa [hashableV] using h)
      exact ⟨_, by simp [_make_hash, hls] <;> rfl⟩
    · intro h
      have := (mhP_spec kwargs kvs).2 (by simpa [hashableV] using h)
      simp [_make_hash, this, Except.bind]
  | .vodict kvs => by
    constructor
    · intro h
      by_cases hf : kwargs.odict_as_unordered = true
      · obtain ⟨ls, hls⟩ := (mhP_spec {} kvs).1 (by simpa [hashableV] using h)
        exact ⟨_, by simp [_make_hash, hf, hls] <;> rfl⟩
      · obtain ⟨ls, hls⟩ := (mhP_spec kwargs kvs).1 (by simpa [hashableV] using h)
        exact ⟨_, by simp [_make_hash, hf, hls] <;> rfl⟩
    · intro h
      by_cases hf : kwargs.odict_as_unordered = true
      · have := (mhP_spec {} kvs).2 (by simpa [hashableV] using h)
        simp [_make_hash, hf, this, Except.bind]
      · have := (mhP_spec kwargs kvs).2 (by simpa [hashableV] using h)
        simp [_make_hash, hf, this, Except.bind]

theorem mhL_spec (kwargs : Options) : ∀ xs : ValueList,
    (hashableL xs = true → ∃ ls, hashList kwargs xs = .ok ls) ∧
    (hashableL xs = false → hashList kwargs xs = .error .unhashableType)
  | .nil => ⟨fun _ => ⟨_, rfl⟩, fun h => by simp [hashableL] at h⟩
  | .cons x xs => by
    constructor
    · intro h
      rw [hashableL, Bool.and_eq_true] at h
      obtain ⟨dx, hdx⟩ := (mhV_spec kwargs x).1 h.1
      obtain ⟨ls, hls⟩ := (mhL_spec kwargs xs).1 h.2
      exact ⟨_, by simp [hashList, hdx, hls] <;> rfl⟩
    · intro h
      rw [hashableL, Bool.and_eq_false_iff] at h
      rcases h with h | h
      · have := (mhV_spec kwargs x).2 h
        simp [hashList, this, Except.bind]
      · rcases Bool.eq_false_or_eq_true (hashableV x) with hx | hx
        · obtain ⟨dx, hdx⟩ := (mhV_spec kwargs x).1 hx
          have := (mhL_spec kwargs xs).2 h
          simp [hashList, hdx, this]
        · have := (mhV_spec kwargs x).2 hx
          simp [hashList, this]

theorem mhP_spec (kwargs : Options) : ∀ kvs : ValuePairList,
    (hashableP kvs = true → ∃ ls, hashPairs kwargs kvs = .ok ls) ∧
    (hashableP kvs = false → hashPairs kwargs kvs = .error .unhashableType)
  | .nil => ⟨fun _ => ⟨_, rfl⟩, fun h => by simp [hashableP] at h⟩
  | .cons k v rest => by
    constructor
    · intro h
      rw [hashableP, Bool.and_eq_true, Bool.and_eq_true] at h
      obtain ⟨dk, hdk⟩ := (mhV_spec kwargs k).1 h.1.1
      obtain ⟨dv, hdv⟩ := (mhV_spec kwargs v).1 h.1.2
      obtain ⟨ls, hls⟩ := (mhP_spec kwargs rest).1 h.2
      exact ⟨_, by simp [hashPairs, hdk, hdv, hls] <;> rfl⟩
    · intro h
      rcases Bool.eq_false_or_eq_true (hashableV k) with hk | hk
      · obtain ⟨dk, hdk⟩ := (mhV_spec kwargs k).1 hk
        rcases Bool.eq_false_or_eq_true (hashableV v) with hv | hv
        · obtain ⟨dv, hdv⟩ := (mhV_spec kwargs v).1 hv
          have hrest : hashableP rest = false := by
            rw [hashableP, hk, hv] at h
            simpa using h
          have := (mhP_spec kwargs rest).2 hrest
          simp [hashPairs, hdk, hdv, this]
        · have := (mhV_spec kwargs v).2 hv
          simp [hashPairs, hdk, this]
      · have := (mhV_spec kwargs k).2 hk
        simp [hashPairs, this]
end

theorem streamOf_spec (kwargs : Options) (v : Value) (h : hashableV v = true) :
    _make_hash kwargs v = .ok (streamOf kwargs v) := by
  obtain ⟨ds, hds⟩ := (mhV_spec kwargs v).1 h
  simp [streamOf, hds]

theorem hashList_ofList (kwargs : Options) :
    ∀ (xs : List Value), (∀ x ∈ xs, hashableV x = true) →
      hashList kwargs (ofList xs) = .ok (xs.map (streamOf kwargs))
  | [], _ => rfl
  | x :: xs, h => by
    have hx := streamOf_spec kwargs x (h x (List.mem_cons_self x xs))
    have hxs := hashList_ofList kwargs xs (fun y hy => h y (List.mem_cons_of_mem x hy))
    simp [ofList, hashList, hx, hxs]

theorem hashPairs_ofPairs (kwargs : Options) :
    ∀ (kvs : List (Value × Value)), (∀ p ∈ kvs, hashableV p.1 = true ∧ hashableV p.2 = true) →
      hashPairs kwargs (ofPairs kvs) =
        .ok (kvs.map (fun p => (streamOf kwargs p.1, streamOf kwargs p.2)))
  | [], _ => rfl
  | (k, v) :: kvs, h => by
    have hk := streamOf_spec kwargs k (h (k, v) (List.mem_cons_self _ kvs)).1
    have hv := streamOf_spec kwargs v (h (k, v) (List.mem_cons_self _ kvs)).2
    have hkvs := hashPairs_ofPairs kwargs kvs (fun p hp => h p (List.mem_cons_of_mem _ hp))
    simp [ofPairs, hashPairs, hk, hv, hkvs]

/-- The set handler on a (hashable) plain list of elements. -/
theorem mh_vset (kwargs : Options) (xs : List Value) (h : ∀ x ∈ xs, hashableV x = true) :
    _make_hash kwargs (.vset (ofList xs)) =
      .ok (_single_digest ("set(") [] ::
        ((sortStreams (xs.map (streamOf kwargs))).flatten ++ [_END_DIGEST])) := by
  simp [_make_hash, hashList_ofList kwargs xs h]

/-- The mapping handler on a (hashable) plain list of pairs. -/
theorem mh_vdict (kwargs : Options) (kvs : List (Value × Value))
    (h : ∀ p ∈ kvs, hashableV p.1 = true ∧ hashableV p.2 = true) :
    _make_hash kwargs (.vdict (ofPairs kvs)) =
      .ok (dictDigests (kvs.map (fun p => (streamOf kwargs p.1, streamOf kwargs p.2)))) := by
  simp [_make_hash, hashPairs_ofPairs kwargs kvs h]

/-- C1: for every set value and every unordered mapping value, the final
digest is independent of the iteration order of the entries: permuting the
elements of a set, or the entries of a mapping, leaves `make_hash`
unchanged, because set element digest streams are sorted by their digest
bytes and mapping entries are sorted by the digest bytes of their hashed
keys before combination.  (The elements are assumed hashable — otherwise
both sides raise — and the hashed keys of the mapping are assumed pairwise
distinct, as they are for the distinct keys of a Python `dict` barring a
BLAKE2b collision.) -/
theorem C1_set_and_dict_hash_order_independent
    (kwargs : Options) (xs ys : List Value) (kvs kvs' : List (Value × Value))
    (hxs : xs.Perm ys) (hkvs : kvs.Perm kvs')
    (hhx : ∀ x ∈ xs, hashableV x = true)
    (hhp : ∀ p ∈ kvs, hashableV p.1 = true ∧ hashableV p.2 = true)
    (hkeys : (kvs.map (fun p => streamOf kwargs p.1)).Pairwise (fun a b => a ≠ b)) :
    make_hash (.vset (ofList xs)) kwargs = make_hash (.vset (ofList ys)) kwargs ∧
    make_hash (.vdict (ofPairs kvs)) kwargs = make_hash (.vdict (ofPairs kvs')) kwargs := by
  have hhy : ∀ y ∈ ys, hashableV y = true := fun y hy => hhx y (hxs.mem_iff.mpr hy)
  have hhp' : ∀ p ∈ kvs', hashableV p.1 = true ∧ hashableV p.2 = true :=
    fun p hp => hhp p (hkvs.mem_iff.mpr hp)
  constructor
  · have hsort : sortStreams (xs.map (streamOf kwargs)) = sortStreams (ys.map (streamOf kwargs)) :=
      sortStreams_perm (hxs.map _)
    simp [make_hash, mh_vset kwargs xs hhx, mh_vset kwargs ys hhy, hsort]
  · have hperm : (kvs.map (fun p => (streamOf kwargs p.1, streamOf kwargs p.2))).Perm
        (kvs'.map (fun p => (streamOf kwargs p.1, streamOf kwargs p.2))) := hkvs.map _
    have hd : ((kvs.map (fun p => (streamOf kwargs p.1, streamOf kwargs p.2))).map
        Prod.fst).Pairwise (fun a b => a ≠ b) := by
      rw [List.map_map]
      exact hkeys
    have hsort := sortPairs_perm hperm hd
    simp [make_hash, mh_vdict kwargs kvs hhp, mh_vdict kwargs kvs' hhp', dictDigests, hsort]

/-- Witness for C1 at concrete inputs: the set `{1, 2}` against `{2, 1}` and
the mapping `{"a": 1, "b": 2}` against `{"b": 2, "a": 1}`. -/
theorem C1_witness :
    ([Value.vint 1, Value.vint 2].Perm [Value.vint 2, Value.vint 1]) ∧
    make_hash (.vset (ofList [Value.vint 1, Value.vint 2])) {} =
      make_hash (.vset (ofList [Value.vint 2, Value.vint 1])) {} ∧
    make_hash (.vdict (ofPairs [(.vstr ("a"), .vint 1), (.vstr ("b"), .vint 2)])) {} =
      make_hash (.vdict (ofPairs [(.vstr ("b"), .vint 2), (.vstr ("a"), .vint 1)])) {} := by
  have hperm : [Value.vint 1, Value.vint 2].Perm [Value.vint 2, Value.vint 1] :=
    List.Perm.swap (Value.vint 2) (Value.vint 1) []
  have hpermp : [((Value.vstr ("a") : Value), (Value.vint 1 : Value)),
      (Value.vstr ("b"), Value.vint 2)].Perm
      [(Value.vstr ("b"), Value.vint 2), (Value.vstr ("a"), Value.vint 1)] :=
    List.Perm.swap _ _ []
  have h := C1_set_and_dict_hash_order_independent {} _ _ _ _ hperm hpermp
    (by decide) (by decide) (by decide)
  exact ⟨hperm, h.1, h.2⟩

/-- C6: for every text string `s`, `make_hash` of `s` equals `make_hash` of
the UTF-8 encoding of `s` taken as a byte string: the `six.binary_type` and
`six.text_type` handlers both produce `_single_digest('str', ...)` over the
same UTF-8 bytes, whatever options are passed. -/
theorem C6_text_and_utf8_bytes_hash_equal (s : String) (kwargs : Options) :
    make_hash (.vstr s) kwargs = make_hash (.vbytes (strBytes s)) kwargs := rfl

/-- Witness for C6 at `s = "café"` (a non-ASCII string). -/
theorem C6_witness :
    make_hash (.vstr ("café")) {} = make_hash (.vbytes (strBytes ("café"))) {} :=
  C6_text_and_utf8_bytes_hash_equal ("café") {}

/-- C10: the concrete ordered-sequence type never influences the digest:
hashing the same elements as a list and as a tuple gives identical results,
since both dispatch to the single `abc.Sequence` handler. -/
theorem C10_list_and_tuple_hash_equal (xs : List Value) (kwargs : Options) :
    make_hash (.vlist (ofList xs)) kwargs = make_hash (.vtuple (ofList xs)) kwargs := rfl

/-- Witness for C10 at `[1, "x"]`. -/
theorem C10_witness :
    make_hash (.vlist (ofList [Value.vint 1, Value.vstr ("x")])) {} =
      make_hash (.vtuple (ofList [Value.vint 1, Value.vstr ("x")])) {} :=
  C10_list_and_tuple_hash_equal [Value.vint 1, Value.vstr ("x")] {}

/-- C2: the four values `"1"` (text), `1` (integer), `1.0` (real) and `True`
(boolean) produce four pairwise distinct digests, although their naive byte
payloads coincide: each category's tag enters the leaf digest as BLAKE2b
personalization, and `bool` is dispatched by its exact registration before
the generic `numbers.Integral` rule. -/
theorem C2_type_tag_separation :
    make_hash (.vstr ("1")) {} ≠ make_hash (.vint 1) {} ∧
    make_hash (.vstr ("1")) {} ≠ make_hash (.vfloat 1) {} ∧
    make_hash (.vstr ("1")) {} ≠ make_hash (.vbool true) {} ∧
    make_hash (.vint 1) {} ≠ make_hash (.vfloat 1) {} ∧
    make_hash (.vint 1) {} ≠ make_hash (.vbool true) {} ∧
    make_hash (.vfloat 1) {} ≠ make_hash (.vbool true) {} := by
  have hs : make_hash (.vstr ("1")) {} =
      .ok ("12de1ce9dedee6a1a592852bb0f5b5e61234bb597c5655e86d9a5425e2c3a179") := by decide
  have hi : make_hash (.vint 1) {} =
      .ok ("d8cffbe8ffe33b22c5801736accf706528a2e4d4e1a0d914a538d5aae244cfda") := by decide
  have hf : make_hash (.vfloat 1) {} =
      .ok ("1d0f1a46ffdc8a21e16bc10def17557a7b41cde473ee242a69d9e00a0d1b85e1") := by decide
  have hb : make_hash (.vbool true) {} =
      .ok ("31ad5fa163a0c478d966c7f7568f3248f0c58d294372b2e8f7cb0560d8c8b12f") := by decide
  refine ⟨?_, ?_, ?_, ?_, ?_, ?_⟩
  · rw [hs, hi]; decide
  · rw [hs, hf]; decide
  · rw [hs, hb]; decide
  · rw [hi, hf]; decide
  · rw [hi, hb]; decide
  · rw [hf, hb]; decide

/-- C5: `make_hash` fails exactly on values whose tree reaches a runtime
category with no registered handler, raising the `UnhashableType` error
(`ValueError` in the source), which always propagates; on every value built
only from the supported categories it returns a digest, never substituting
a sentinel digest for an error. -/
theorem C5_unhashable_type_error (v : Value) (kwargs : Options) :
    (hashableV v = false → make_hash v kwargs = .error .unhashableType) ∧
    (hashableV v = true → ∃ d, make_hash v kwargs = .ok d) := by
  constructor
  · intro h
    have he := (mhV_spec kwargs v).2 h
    simp [make_hash, he]
  · intro h
    obtain ⟨ds, hds⟩ := (mhV_spec kwargs v).1 h
    exact ⟨finalHash ds, by simp [make_hash, hds]⟩

/-- Witness for C5: a list containing an unregistered value errors; a
mapping of supported values succeeds. -/
theorem C5_witness :
    hashableV (.vlist (ofList [Value.vother ("socket")])) = false ∧
    make_hash (.vlist (ofList [Value.vother ("socket")])) {} = .error .unhashableType ∧
    hashableV (.vdict (ofPairs [(.vstr ("a"), .vnone)])) = true ∧
    (∃ d, make_hash (.vdict (ofPairs [(.vstr ("a"), .vnone)])) {} = .ok d) :=
  ⟨by decide,
   (C5_unhashable_type_error (.vlist (ofList [Value.vother ("socket")])) {}).1 (by decide),
   by decide,
   (C5_unhashable_type_error (.vdict (ofPairs [(.vstr ("a"), .vnone)])) {}).2 (by decide)⟩

theorem ratSub_eq (a b : Rat) : ratSub a b = a - b := by
  have ha : ((a.den : Rat)) ≠ 0 := Nat.cast_ne_zero.mpr a.den_nz
  have hb : ((b.den : Rat)) ≠ 0 := Nat.cast_ne_zero.mpr b.den_nz
  have hna : ((a.num : Rat)) = a * (a.den : Rat) := (div_eq_iff ha).mp (Rat.num_div_den a)
  have hnb : ((b.num : Rat)) = b * (b.den : Rat) := (div_eq_iff hb).mp (Rat.num_div_den b)
  rw [ratSub, Rat.divInt_eq_div]
  push_cast
  rw [div_eq_iff (mul_ne_zero ha hb), hna, hnb]
  ring

/-- C7: the digest of a timestamp depends only on the instant it denotes,
under the normalization that a timezone-naive timestamp is assumed UTC: a
naive datetime hashes like the same wall clock with an explicit UTC (offset
0) timezone, and two aware timestamps denoting the same instant hash
identically — the handler hashes `float_to_text` of the epoch seconds at
the system precision under tag `"datetime"`. -/
theorem C7_datetime_instant_normalization (w w1 w2 o1 o2 : Rat) (kwargs : Options)
    (hinst : w1 - o1 = w2 - o2) :
    make_hash (.vdatetime w none) kwargs = make_hash (.vdatetime w (some 0)) kwargs ∧
    make_hash (.vdatetime w1 (some o1)) kwargs = make_hash (.vdatetime w2 (some o2)) kwargs := by
  constructor
  · rfl
  · have hts : ratSub w1 o1 = ratSub w2 o2 := by rw [ratSub_eq, ratSub_eq, hinst]
    simp [make_hash, _make_hash, hts]

/-- Witness for C7: midnight 2018-01-01 naive vs explicit UTC, and
01:00+01:00 on 1970-01-01 vs the epoch instant itself. -/
theorem C7_witness :
    ((3600 : Rat) - 3600 = (0 : Rat) - 0) ∧
    make_hash (.vdatetime 1514764800 none) {} = make_hash (.vdatetime 1514764800 (some 0)) {} ∧
    make_hash (.vdatetime 3600 (some 3600)) {} = make_hash (.vdatetime 0 (some 0)) {} := by
  have h := C7_datetime_instant_normalization 1514764800 3600 0 3600 0 {} (by simp)
  exact ⟨by simp, h.1, h.2⟩

/-- C3, counterexample: there is no per-call `float_precision` option — the
`numbers.Real` handler always renders at `AIIDA_FLOAT_PRECISION` and never
reads the per-call options, so the digests computed "at precision 6" and
"at precision 12" coincide for every value, and the claimed conjunction
(equal at 6 but different at 12) is contradictory. -/
theorem C3_counterexample :
    ¬ ((make_hash (.vfloat (mkRat 10000000001 10000000000)) { float_precision := some 6 } =
          make_hash (.vfloat 1) { float_precision := some 6 }) ∧
       (make_hash (.vfloat (mkRat 10000000001 10000000000)) { float_precision := some 12 } ≠
          make_hash (.vfloat 1) { float_precision := some 12 })) := by
  intro h
  exact h.2 h.1

/-- C3, amended: the options record is accepted but ignored for reals:
`make_hash` of a real value is the same whatever options are passed, and the
precision is fixed at the system-wide constant (12).  At the rendering
level, `float_to_text` at 6 significant digits maps `1.0000000001` and
`1.0` to the same text while at 12 digits it distinguishes them, so the two
values' digests differ under `make_hash` — whatever `float_precision` is
requested. -/
theorem C3_amended_fixed_precision (q : Rat) (kwargs : Options) :
    make_hash (.vfloat q) kwargs = make_hash (.vfloat q) {} ∧
    float_to_text (mkRat 10000000001 10000000000) 6 = float_to_text 1 6 ∧
    float_to_text (mkRat 10000000001 10000000000) 12 ≠ float_to_text 1 12 ∧
    make_hash (.vfloat (mkRat 10000000001 10000000000)) kwargs ≠
      make_hash (.vfloat 1) kwargs := by
  refine ⟨rfl, by decide, by decide, ?_⟩
  have h1 : make_hash (.vfloat (mkRat 10000000001 10000000000)) {} =
      .ok ("ba96fe2cb2b9245ae3fd0a20133d96d55b6fe6c552db395bde89aa1000af503b") := by decide
  have h2 : make_hash (.vfloat 1) {} =
      .ok ("1d0f1a46ffdc8a21e16bc10def17557a7b41cde473ee242a69d9e00a0d1b85e1") := by decide
  intro h
  have h' : (Except.ok ("ba96fe2cb2b9245ae3fd0a20133d96d55b6fe6c552db395bde89aa1000af503b") :
      Except HashError String) =
      .ok ("1d0f1a46ffdc8a21e16bc10def17557a7b41cde473ee242a69d9e00a0d1b85e1") := by
    rw [← h1, ← h2]
    exact h
  exact absurd h' (by decide)

/-- C4, counterexample: with `odict_as_unordered` set, an `OrderedDict`
whose value contains a nested `OrderedDict` does NOT hash like the
equivalent plain mapping under the same options: the source calls the
mapping handler without forwarding `**kwargs` (line 222), so the nested
ordered mapping reverts to insertion-order (`"odict("`) hashing on the
left, while on the right the forwarded flag converts it. -/
theorem C4_counterexample :
    make_hash (.vodict (ofPairs [(.vstr ("a"), .vodict (ofPairs [(.vstr ("b"), .vint 1)]))]))
        { odict_as_unordered := true } ≠
      make_hash (.vdict (ofPairs [(.vstr ("a"), .vodict (ofPairs [(.vstr ("b"), .vint 1)]))]))
        { odict_as_unordered := true } := by
  have h1 : make_hash
      (.vodict (ofPairs [(.vstr ("a"), .vodict (ofPairs [(.vstr ("b"), .vint 1)]))]))
      { odict_as_unordered := true } =
      .ok ("7bd7428e93d73debd2358b8801922c7dc8766d36a50c676b16ac2bbd3737f628") := by decide
  have h2 : make_hash
      (.vdict (ofPairs [(.vstr ("a"), .vodict (ofPairs [(.vstr ("b"), .vint 1)]))]))
      { odict_as_unordered := true } =
      .ok ("69230507c974349a4281913179b8acce797c36f500abccfc8f4b3e8bb0267f4e") := by decide
  rw [h1, h2]
  decide

/-- C4, amended: hashing an ordered mapping with the treat-as-unordered
flag set equals hashing the equivalent unordered mapping with the DEFAULT
options (not the same options): the source drops `**kwargs` when invoking
the mapping handler, so every key and value is rehashed with default
options.  (For entries containing no nested ordered mapping — or more
generally whose hashes do not depend on the options — this coincides with
the claim's statement.) -/
theorem C4_amended_flag_uses_default_options (kvs : ValuePairList) (kwargs : Options)
    (hflag : kwargs.odict_as_unordered = true) :
    make_hash (.vodict kvs) kwargs = make_hash (.vdict kvs) {} := by
  simp [make_hash, _make_hash, hflag]

/-- Witness for C4 (amended) at the nested-ordered-mapping input of the
counterexample. -/
theorem C4_witness :
    ({ odict_as_unordered := true } : Options).odict_as_unordered = true ∧
    make_hash (.vodict (ofPairs [(.vstr ("a"), .vodict (ofPairs [(.vstr ("b"), .vint 1)]))]))
        { odict_as_unordered := true } =
      make_hash (.vdict (ofPairs [(.vstr ("a"), .vodict (ofPairs [(.vstr ("b"), .vint 1)]))]))
        {} :=
  ⟨rfl, C4_amended_flag_uses_default_options
    (ofPairs [(.vstr ("a"), .vodict (ofPairs [(.vstr ("b"), .vint 1)]))])
    { odict_as_unordered := true } rfl⟩

theorem flatten_map_singleton {α β : Type _} (f : α → β) :
    ∀ l : List α, (l.map (fun x => [f x])).flatten = l.map f
  | [] => rfl
  | x :: xs => by simp [flatten_map_singleton f xs]

/-- C9: a mutable byte-array is not treated as a byte string: it dispatches
to the generic `abc.Sequence` rule and is hashed as a list (tag `"list("`)
of its integer byte values, so its digest stream always differs from that
of the equivalent `bytes` value (a single `"str"` leaf); at the digest
level the two final hashes differ as well (checked concretely for
`bytearray(b"1")` against `b"1"`). -/
theorem C9_bytearray_hashes_as_list (bs : List Nat) (kwargs : Options) (hne : bs ≠ []) :
    _make_hash kwargs (.vbytearray bs) =
      _make_hash kwargs (.vlist (ofList (bs.map (fun n : Nat => Value.vint (n : Int))))) ∧
    _make_hash kwargs (.vbytearray bs) ≠ _make_hash kwargs (.vbytes bs) ∧
    make_hash (.vbytearray [49]) {} ≠ make_hash (.vbytes [49]) {} := by
  refine ⟨?_, ?_, ?_⟩
  · have hh : ∀ x ∈ bs.map (fun n : Nat => Value.vint (n : Int)), hashableV x = true := by
      intro x hx
      obtain ⟨n, _, rfl⟩ := List.mem_map.mp hx
      rfl
    simp only [_make_hash, hashList_ofList kwargs _ hh, ok_bind, List.map_map]
    rw [show ((fun x => streamOf kwargs x) ∘ fun n : Nat => Value.vint (n : Int)) =
      (fun n : Nat => [intDigest (n : Int)]) from rfl]
    rw [flatten_map_singleton]
  · intro heq
    simp only [_make_hash, Except.ok.injEq] at heq
    have hlen := congrArg List.length heq
    simp only [List.length_append, List.length_cons, List.length_map, List.length_nil] at hlen
    omega
  · have h1 : make_hash (.vbytearray [49]) {} =
        .ok ("87c892d638023bbe9c99b391d7a0f87a48d4329300fa8070ecb710472a99dda3") := by decide
    have h2 : make_hash (.vbytes [49]) {} =
        .ok ("12de1ce9dedee6a1a592852bb0f5b5e61234bb597c5655e86d9a5425e2c3a179") := by decide
    rw [h1, h2]
    decide

/-- Witness for C9 at `b"1"`. -/
theorem C9_witness :
    ([49] ≠ ([] : List Nat)) ∧
    _make_hash {} (.vbytearray [49]) ≠ _make_hash {} (.vbytes [49]) :=
  ⟨by decide, (C9_bytearray_hashes_as_list [49] {} (by decide)).2.1⟩

/-! ## Folder modifications (C8)

Folder trees are written as plain lists of named entries; `AddIgnored`
relates a folder tree to the tree obtained by adding, at some depth, one
entry whose name is in the ignore-list (the entry is listed first at its
level, which is immaterial since each level is sorted by name before
emission); `AddFile` likewise relates a tree to the tree with one file
added at some depth, along a path of non-ignored directory names. -/

inductive AddIgnored (ign : List String) :
    List (String × FolderEntry) → List (String × FolderEntry) → Prop
  | here (n : String) (e : FolderEntry) (es : List (String × FolderEntry)) (hn : n ∈ ign) :
      AddIgnored ign es ((n, e) :: es)
  | there (pre post : List (String × FolderEntry)) (n : String)
      (sub sub' : List (String × FolderEntry)) (h : AddIgnored ign sub sub') :
      AddIgnored ign (pre ++ (n, FolderEntry.dir (ofEntries sub)) :: post)
                     (pre ++ (n, FolderEntry.dir (ofEntries sub')) :: post)

inductive AddFile (ign : List String) (fname : String) (content : List Nat) :
    List (String × FolderEntry) → List (String × FolderEntry) → Prop
  | here (es : List (String × FolderEntry)) :
      AddFile ign fname content es ((fname, FolderEntry.file content) :: es)
  | there (pre post : List (String × FolderEntry)) (n : String)
      (sub sub' : List (String × FolderEntry)) (hn : ¬ n ∈ ign)
      (h : AddFile ign fname content sub sub') :
      AddFile ign fname content (pre ++ (n, FolderEntry.dir (ofEntries sub)) :: post)
                                (pre ++ (n, FolderEntry.dir (ofEntries sub')) :: post)

theorem entriesInfo_ofEntries (ign : List String) :
    ∀ l : List (String × FolderEntry),
      entriesInfo ign (ofEntries l) = l.map (fun p => (p.1, entryInfo ign p.2))
  | [] => rfl
  | (n, e) :: l => by simp [ofEntries, entriesInfo, entriesInfo_ofEntries ign l]

/-- Inserting an entry whose name is ignored anywhere into a sorted level
adds nothing to the emitted digests. -/
theorem flatMap_orderedInsert_ignored (ign : List String) (x : String × EntryInfo)
    (hx : x.1 ∈ ign) :
    ∀ s : List (String × EntryInfo),
      (List.orderedInsert (fun a b => strLt b.1 a.1 = false) x s).flatMap (entryEmit ign) =
        s.flatMap (entryEmit ign)
  | [] => by simp [List.orderedInsert, entryEmit, hx]
  | y :: s => by
    simp only [List.orderedInsert]
    by_cases h : strLt y.1 x.1 = false
    · simp [h, entryEmit, hx]
    · rw [if_neg h]
      simp only [List.flatMap_cons]
      rw [flatMap_orderedInsert_ignored ign x hx s]

/-- Adding an ignored entry at any depth leaves the emitted digest stream
of the folder unchanged. -/
theorem addIgnored_emit_eq (ign : List String) {es es' : List (String × FolderEntry)}
    (h : AddIgnored ign es es') :
    emitEntries ign (entriesInfo ign (ofEntries es')) =
      emitEntries ign (entriesInfo ign (ofEntries es)) := by
  induction h with
  | here n e es hn =>
    show emitEntries ign (entriesInfo ign (ofEntries ((n, e) :: es))) = _
    simp only [ofEntries, entriesInfo, emitEntries, sortEntries, List.insertionSort]
    exact flatMap_orderedInsert_ignored ign (n, entryInfo ign e) hn _
  | there pre post n sub sub' hsub ih =>
    rw [entriesInfo_ofEntries, entriesInfo_ofEntries, List.map_append, List.map_append,
      List.map_cons, List.map_cons]
    have hinfo : entryInfo ign (FolderEntry.dir (ofEntries sub')) =
        entryInfo ign (FolderEntry.dir (ofEntries sub)) := by
      simp only [entryInfo]
      rw [ih]
    rw [hinfo]

theorem length_flatMap {α β : Type _} (f : α → List β) :
    ∀ l : List α, (l.flatMap f).length = (l.map (fun x => (f x).length)).sum
  | [] => rfl
  | x :: l => by simp [length_flatMap f l]

/-- The length of an emitted level is the sum of the per-entry emission
lengths, in any order. -/
theorem emitEntries_length (ign : List String) (l : List (String × EntryInfo)) :
    (emitEntries ign l).length = (l.map (fun p => (entryEmit ign p).length)).sum := by
  rw [emitEntries, length_flatMap]
  exact ((List.perm_insertionSort _ l).map (fun p => (entryEmit ign p).length)).sum_eq

/-- Adding a non-ignored file at any depth (along non-ignored directories)
grows the emitted digest stream by exactly two digests. -/
theorem addFile_emit_length (ign : List String) (fname : String) (content : List Nat)
    (hfn : ¬ fname ∈ ign) {fs fs' : List (String × FolderEntry)}
    (h : AddFile ign fname content fs fs') :
    (emitEntries ign (entriesInfo ign (ofEntries fs'))).length =
      (emitEntries ign (entriesInfo ign (ofEntries fs))).length + 2 := by
  induction h with
  | here es =>
    rw [entriesInfo_ofEntries, entriesInfo_ofEntries, emitEntries_length, emitEntries_length]
    simp only [List.map_cons, List.sum_cons, entryEmit, hfn, if_false, entryInfo]
    simp [entryEmit]
    omega
  | there pre post n sub sub' hn hsub ih =>
    rw [entriesInfo_ofEntries, entriesInfo_ofEntries, emitEntries_length, emitEntries_length]
    simp only [List.map_append, List.map_cons, List.sum_append, List.sum_cons]
    have e1 : entryEmit ign (n, entryInfo ign (FolderEntry.dir (ofEntries sub'))) =
        _single_digest ("dir(") (strBytes n) ::
          (emitEntries ign (entriesInfo ign (ofEntries sub')) ++ [_END_DIGEST]) := by
      simp [entryEmit, entryInfo, hn]
    have e2 : entryEmit ign (n, entryInfo ign (FolderEntry.dir (ofEntries sub))) =
        _single_digest ("dir(") (strBytes n) ::
          (emitEntries ign (entriesInfo ign (ofEntries sub)) ++ [_END_DIGEST]) := by
      simp [entryEmit, entryInfo, hn]
    rw [e1, e2]
    simp only [List.length_cons, List.length_append, List.length_singleton]
    omega

/-- C8: for every folder and ignore-list, adding an entry whose name is in
the ignore-list — at any depth of the tree — leaves the folder's digest
unchanged (the ignored entry contributes nothing, not even a placeholder),
while adding a file with a non-ignored name (below non-ignored directories)
changes the digest stream: it grows by exactly the `"fname"` and
`"fcontent"` digests, so the streams always differ; the resulting final
digests are checked to differ on a concrete folder. -/
theorem C8_folder_ignore_list (kwargs : Options)
    (es es' fs fs' : List (String × FolderEntry)) (fname : String) (content : List Nat)
    (hI : AddIgnored kwargs.ignored_folder_content es es')
    (hF : AddFile kwargs.ignored_folder_content fname content fs fs')
    (hfn : ¬ fname ∈ kwargs.ignored_folder_content) :
    make_hash (.vfolder (ofEntries es')) kwargs = make_hash (.vfolder (ofEntries es)) kwargs ∧
    _make_hash kwargs (.vfolder (ofEntries fs')) ≠ _make_hash kwargs (.vfolder (ofEntries fs)) ∧
    make_hash (.vfolder (ofEntries [("a.txt", .file [120])]))
        { ignored_folder_content := ["b.txt"] } ≠
      make_hash (.vfolder (ofEntries [])) { ignored_folder_content := ["b.txt"] } := by
  refine ⟨?_, ?_, ?_⟩
  · have he := addIgnored_emit_eq kwargs.ignored_folder_content hI
    simp [make_hash, _make_hash, folderDigests, he]
  · intro heq
    simp only [_make_hash, folderDigests, Except.ok.injEq, List.cons.injEq, true_and] at heq
    have := addFile_emit_length kwargs.ignored_folder_content fname content hfn hF
    rw [heq] at this
    omega
  · have h1 : make_hash (.vfolder (ofEntries [("a.txt", .file [120])]))
        { ignored_folder_content := ["b.txt"] } =
        .ok ("48af65cd23cbe4338844ef2d40b6e8987a11f4c016b3142f844005197c608c15") := by decide
    have h2 : make_hash (.vfolder (ofEntries []))
        { ignored_folder_content := ["b.txt"] } =
        .ok ("e7dcaaba6c1f4eea2c8043af00523ec176b3a39c390ccabcdc23e0a699bbe303") := by decide
    rw [h1, h2]
    decide

/-- Witness for C8: ignore-list `["b.txt"]`; adding `b.txt` next to
`a.txt`, and also inside a subdirectory `d`, leaves the digest unchanged;
adding the file `a.txt` to the empty folder changes it. -/
theorem C8_witness :
    (AddIgnored ["b.txt"] [("a.txt", FolderEntry.file [120])]
      [("b.txt", FolderEntry.file [121]), ("a.txt", FolderEntry.file [120])]) ∧
    make_hash (.vfolder (ofEntries
        [("b.txt", FolderEntry.file [121]), ("a.txt", FolderEntry.file [120])]))
        { ignored_folder_content := ["b.txt"] } =
      make_hash (.vfolder (ofEntries [("a.txt", FolderEntry.file [120])]))
        { ignored_folder_content := ["b.txt"] } ∧
    make_hash (.vfolder (ofEntries
        [("d", FolderEntry.dir (ofEntries [("b.txt", FolderEntry.file [121])]))]))
        { ignored_folder_content := ["b.txt"] } =
      make_hash (.vfolder (ofEntries [("d", FolderEntry.dir (ofEntries []))]))
        { ignored_folder_content := ["b.txt"] } ∧
    _make_hash { ignored_folder_content := ["b.txt"] }
        (.vfolder (ofEntries [("a.txt", FolderEntry.file [120])])) ≠
      _make_hash { ignored_folder_content := ["b.txt"] } (.vfolder (ofEntries [])) := by
  have hI1 : AddIgnored ["b.txt"] [("a.txt", FolderEntry.file [120])]
      [("b.txt", FolderEntry.file [121]), ("a.txt", FolderEntry.file [120])] :=
    AddIgnored.here _ _ _ (by decide)
  have hI2 : AddIgnored ["b.txt"]
      [("d", FolderEntry.dir (ofEntries []))]
      [("d", FolderEntry.dir (ofEntries [("b.txt", FolderEntry.file [121])]))] := by
    have h0 : AddIgnored ["b.txt"] [] [("b.txt", FolderEntry.file [121])] :=
      AddIgnored.here _ _ _ (by decide)
    have h1 := AddIgnored.there [] [] ("d") [] [("b.txt", FolderEntry.file [121])] h0
    simpa using h1
  have hF : AddFile ["b.txt"] ("a.txt") [120] [] [("a.txt", FolderEntry.file [120])] :=
    AddFile.here []
  have h1 := C8_folder_ignore_list { ignored_folder_content := ["b.txt"] }
    _ _ _ _ ("a.txt") [120] hI1 hF (by decide)
  have h2 := C8_folder_ignore_list { ignored_folder_content := ["b.txt"] }
    _ _ _ _ ("a.txt") [120] hI2 hF (by decide)
  exact ⟨hI1, h1.1, h2.1, h1.2.1⟩

end AiidaHash
